import Mathlib

/-!
Verification development for the company-name/IBAN entity-resolution pipeline
(`pipeline.py`).  The Python source is shallowly embedded: pandas DataFrames
become lists of records (one structure per enrichment stage, since columns are
added stage by stage and never mutated), Python strings become `String`,
`numpy.argmax` becomes an explicit first-maximum index function, and the
fallible matching step (which can raise `ValueError` on an empty candidate
array) returns `Except String`.  Character-level operations model the ASCII
fragment of Python semantics (`str.lower`, `\w`, `str.split`, `str.strip`),
which is the fragment exercised by the data this pipeline handles.
-/

namespace Pipeline

/-- Decidable equality for `Except`, needed to evaluate the fallible matcher
at concrete inputs. -/
instance {ε α : Type} [DecidableEq ε] [DecidableEq α] : DecidableEq (Except ε α) :=
  fun a b =>
    match a, b with
    | .error x, .error y =>
      if h : x = y then .isTrue (by rw [h])
      else .isFalse fun hc => h (by cases hc; rfl)
    | .ok x, .ok y =>
      if h : x = y then .isTrue (by rw [h])
      else .isFalse fun hc => h (by cases hc; rfl)
    | .error _, .ok _ => .isFalse fun hc => Except.noConfusion hc
    | .ok _, .error _ => .isFalse fun hc => Except.noConfusion hc

/-! ## Character-level primitives (ASCII model of Python string operations) -/

/-- Whitespace test; Lean's `Char.isWhitespace` (space, tab, CR, LF) models the
ASCII fragment of Python's whitespace class. -/
def isWs (c : Char) : Bool := c.isWhitespace

/-- Model of the regex class `\w` (ASCII fragment): alphanumeric or underscore. -/
def isWordChar (c : Char) : Bool := c.isAlphanum || c = '_'

/-- ASCII uppercase letter test, on code points. -/
def isUpperAscii (c : Char) : Bool := 65 ≤ c.toNat && c.toNat ≤ 90

/-- ASCII lowercase letter test, on code points. -/
def isLowerAscii (c : Char) : Bool := 97 ≤ c.toNat && c.toNat ≤ 122

/-- Model of Python `str.lower` applied to one character (ASCII fragment). -/
def pyLower (c : Char) : Char :=
  if isUpperAscii c then Char.ofNat (c.toNat + 32) else c

/-- Model of Python `str.upper` applied to one character (ASCII fragment). -/
def pyUpper (c : Char) : Char :=
  if isLowerAscii c then Char.ofNat (c.toNat - 32) else c

/-- Model of Python `str.strip()`: drop leading and trailing whitespace. -/
def stripChars (l : List Char) : List Char :=
  List.rdropWhile isWs (l.dropWhile isWs)

/-- Model of the regex substitution `re.sub(' +', ' ', ·)`: every maximal run
of space characters (U+0020 only, not general whitespace) becomes one space
(a space immediately followed by another space is dropped). -/
def collapseSpaces : List Char → List Char
  | [] => []
  | [c] => [c]
  | c1 :: c2 :: rest =>
    if c1 = ' ' && c2 = ' ' then collapseSpaces (c2 :: rest)
    else c1 :: collapseSpaces (c2 :: rest)

/-- Model of Python `str.strip()` on `String`. -/
def pyStrip (s : String) : String := ⟨stripChars s.data⟩

/-- Checks that no two adjacent characters are both spaces (U+0020). -/
def noDoubleSpace : List Char → Bool
  | c1 :: c2 :: rest => !(c1 = ' ' && c2 = ' ') && noDoubleSpace (c2 :: rest)
  | _ => true

/-- Auxiliary splitter: `acc` is the current (reversed) token. -/
def pySplitAux : List Char → List Char → List (List Char)
  | [], acc => if acc = [] then [] else [acc.reverse]
  | c :: cs, acc =>
    if isWs c then
      if acc = [] then pySplitAux cs [] else acc.reverse :: pySplitAux cs []
    else pySplitAux cs (c :: acc)

/-- Model of Python `str.split()` with no argument: split on runs of
whitespace, producing no empty tokens. -/
def pySplit (s : String) : List String :=
  (pySplitAux s.data []).map fun t => ⟨t⟩

/-- Model of Python `' '.join(tokens)`. -/
def joinSpace (tokens : List String) : String := String.intercalate " " tokens

/-- Model of Python `str.capitalize()`: first character uppercased, every
remaining character lowercased. -/
def pyCapitalize (s : String) : String :=
  match s.data with
  | [] => ""
  | c :: rest => ⟨pyUpper c :: rest.map pyLower⟩

/-! ## Generic list helpers (models of pandas/python dedup behaviour) -/

/-- Keep the first record bearing each key, in input order; `seen` is the set
of keys already emitted.  Models `pandas.DataFrame.drop_duplicates`. -/
def dedupByKeyAux {α κ : Type} [DecidableEq κ] (key : α → κ) :
    List κ → List α → List α
  | _, [] => []
  | seen, x :: xs =>
    if key x ∈ seen then dedupByKeyAux key seen xs
    else x :: dedupByKeyAux key (key x :: seen) xs

/-- Keep the first record bearing each key, in input order. -/
def dedupByKey {α κ : Type} [DecidableEq κ] (key : α → κ) (l : List α) : List α :=
  dedupByKeyAux key [] l

/-- First-occurrence deduplication; models `pandas.Series.unique` (which
preserves first-occurrence order) and is the order-insensitive model of
Python `list(set(x))`. -/
def dedupFirst {α : Type} [DecidableEq α] (l : List α) : List α :=
  dedupByKey id l

/-- Lexicographic comparison of strings by code point, as Python `sorted` uses. -/
def charListLe : List Char → List Char → Bool
  | [], _ => true
  | _ :: _, [] => false
  | a :: as, b :: bs =>
    if a.toNat < b.toNat then true
    else if b.toNat < a.toNat then false
    else charListLe as bs

/-- String order by code points. -/
def strLe (a b : String) : Bool := charListLe a.data b.data

/-- Model of Python `sorted` on strings (and of the ascending key order pandas
`groupby` produces). -/
def sortStrings (l : List String) : List String :=
  List.insertionSort (fun a b => strLe a b = true) l

/-! ## fuzzywuzzy `token_set_ratio` (python-Levenshtein backend) -/

/-- One inner step of the Levenshtein dynamic program: given the character
`ca` of the first string, the remaining characters of the second string, the
tail of the previous row, the diagonal entry and the entry to the left,
produce the rest of the current row. -/
def levGo (ca : Char) : List Char → List Nat → Nat → Nat → List Nat
  | [], _, _, _ => []
  | _ :: _, [], _, _ => []
  | cb :: bs, pj :: ps, diag, left =>
    let v := min (pj + 1) (min (left + 1) (diag + (if ca = cb then 0 else 2)))
    v :: levGo ca bs ps pj v

/-- Edit distance with insertion/deletion cost 1 and substitution cost 2, the
distance underlying `Levenshtein.ratio` (the backend of fuzzywuzzy's
`fuzz.ratio`). Row-by-row dynamic program. -/
def levDist2 (a b : List Char) : Nat :=
  let row0 := List.range (b.length + 1)
  let final := (a.foldl
    (fun (st : Nat × List Nat) ca =>
      (st.1 + 1, (st.1 + 1) :: levGo ca b (st.2.drop 1) (st.2.headD 0) (st.1 + 1)))
    (0, row0)).2
  final.getLastD 0

/-- Round-half-to-even of the fraction `num / den`, as Python 3 `round` does. -/
def roundHalfEven (num den : Nat) : Nat :=
  let q := num / den
  let r := num % den
  if 2 * r < den then q
  else if den < 2 * r then q + 1
  else if q % 2 = 0 then q else q + 1

/-- Model of `fuzz.ratio` (python-Levenshtein backend):
`round(100 * (lensum - dist) / lensum)` where `dist` is the substitution-
cost-2 edit distance; 100 when both strings are empty. -/
def fuzzScore (s1 s2 : String) : Nat :=
  let lensum := s1.data.length + s2.data.length
  if lensum = 0 then 100
  else roundHalfEven (100 * (lensum - levDist2 s1.data s2.data)) lensum

/-- Model of fuzzywuzzy `utils.full_process` (ASCII fragment, the
`force_ascii` path being the identity there): replace every non-`\w`
character by a space, lowercase, strip. -/
def full_process (s : String) : String :=
  ⟨stripChars ((s.data.map fun c => if isWordChar c then c else ' ').map pyLower)⟩

/-- Model of fuzzywuzzy `fuzz.token_set_ratio`: process both strings, form the
token sets, score the sorted intersection against each sorted union side and
take the best of the three pairwise scores.  Returns 0 when either processed
string is empty (`utils.validate_string`). -/
def token_set_ratio (s1 s2 : String) : Nat :=
  let p1 := full_process s1
  let p2 := full_process s2
  if p1.data = [] then 0
  else if p2.data = [] then 0
  else
    let t1 := dedupFirst (pySplit p1)
    let t2 := dedupFirst (pySplit p2)
    let sorted_sect := joinSpace (sortStrings (t1.filter fun t => t2.contains t))
    let sorted_1to2 :=
      pyStrip (sorted_sect ++ " " ++ joinSpace (sortStrings (t1.filter fun t => !t2.contains t)))
    let sorted_2to1 :=
      pyStrip (sorted_sect ++ " " ++ joinSpace (sortStrings (t2.filter fun t => !t1.contains t)))
    let sect := pyStrip sorted_sect
    max (fuzzScore sect sorted_1to2) (max (fuzzScore sect sorted_2to1) (fuzzScore sorted_1to2 sorted_2to1))

/-! ## numpy argmax -/

/-- Index and value of the first maximum of a list, as `numpy.argmax` selects
("in case of multiple occurrences of the maximum values, the indices
corresponding to the first occurrence are returned").  `(0, 0)` on `[]`
(that case is unreachable: the caller raises first). -/
def idxMax : List Nat → Nat × Nat
  | [] => (0, 0)
  | [x] => (0, x)
  | x :: y :: rest =>
    let jv := idxMax (y :: rest)
    if x < jv.2 then (jv.1 + 1, jv.2) else (0, x)

/-! ## The pipeline records

One structure per enrichment stage: pandas adds columns stage by stage and
never mutates earlier ones.  Column names from `config.py` (not part of the
given source; the spec lists them as boundary configuration) become field
names; the `INVALID` sentinel becomes an explicit parameter. -/

/-- An ingested row: `name`/`iban` may be missing (pandas `NaN`). -/
structure RawRow where
  name : Option String
  iban : Option String
deriving DecidableEq, Repr

/-- A row that survived `remove_anomaly_data`: both fields present. -/
structure CleanRow where
  name : String
  iban : String
deriving DecidableEq, Repr

/-- A row after `normalize_name_company` added the normalized-name column. -/
structure NormRow extends CleanRow where
  norm_name : String
deriving DecidableEq, Repr

/-- A row after `remove_terms_name_company` added the suffix-stripped name. -/
structure TermRow extends NormRow where
  not_business_terms_name : String
deriving DecidableEq, Repr

/-- A row after `generate_name_iban_normalized` added the truncated IBAN, the
full key (`NORM_NAME_IBAN`) and the candidate key
(`NOT_BUSINESS_TERMS_NAME_NORM_IBAN`). -/
structure KeyRow extends TermRow where
  norm_iban : String
  norm_name_iban : String
  not_business_terms_name_norm_iban : String
deriving DecidableEq, Repr

/-- A row after `generate_company_match` assigned the resolved company name. -/
structure MatchRow extends KeyRow where
  company : String
deriving DecidableEq, Repr

/-- One output row of the aggregation stage. -/
structure Entity where
  company : String
  names : List String
  ibans : List String
deriving DecidableEq, Repr

/-! ## Stage 1: duplicate removal (`process_duplicate_removal`) -/

/-- Embeds `remove_anomaly_data`: drop rows with a missing name or IBAN
(`dropna`) and rows whose IBAN equals the `INVALID` sentinel. -/
def remove_anomaly_data (invalid : String) (rows : List RawRow) : List CleanRow :=
  rows.filterMap fun r =>
    match r.name, r.iban with
    | some n, some i => if i = invalid then none else some ⟨n, i⟩
    | _, _ => none

/-- Embeds `normalize_text`: lowercase, delete every character matching
`[^\w\s]`, strip, collapse space runs. -/
def normalize_text (text : String) : String :=
  ⟨collapseSpaces (stripChars ((text.data.map pyLower).filter fun c => isWordChar c || isWs c))⟩

/-- Embeds `normalize_name_company`: add the `NORM_NAME` column. -/
def normalize_name_company (rows : List CleanRow) : List NormRow :=
  rows.map fun r => { toCleanRow := r, norm_name := normalize_text r.name }

/-- Embeds `remove_duplicates`: `drop_duplicates(subset=[NORM_NAME,
IBAN_COLUMN])`, keeping the first occurrence. -/
def remove_duplicates (rows : List NormRow) : List NormRow :=
  dedupByKey (fun r => (r.norm_name, r.iban)) rows

/-- Embeds `process_duplicate_removal` (minus the CSV read, which the spec
places at the I/O boundary): anomaly removal, name normalization, exact
deduplication. -/
def process_duplicate_removal (invalid : String) (rows : List RawRow) : List NormRow :=
  remove_duplicates (normalize_name_company (remove_anomaly_data invalid rows))

/-! ## Stage 2: entity resolution (`process_entity_resolution`) -/

/-- Modelled from the cleanco terms lexicon used by `basename` (a fixed
third-party reference list of legal-entity suffixes); a representative ASCII
subset suffices for the records considered here. -/
def TERMS : List String :=
  ["gmbh", "corp", "ltd", "inc", "llc", "ag", "co", "sa", "srl", "bv", "plc",
   "kg", "ug", "oy", "ab", "spa", "corporation", "limited", "company"]

/-- Model of cleanco `basename` with default options: strip recognised
legal-suffix tokens from the tail of the name, rejoining with single spaces. -/
def basename (text : String) : String :=
  joinSpace (((pySplit text).reverse.dropWhile fun t => TERMS.contains t).reverse)

/-- Embeds `remove_business_terms`: cleanco `basename`, then strip and
collapse space runs. -/
def remove_business_terms (text : String) : String :=
  ⟨collapseSpaces (stripChars (basename text).data)⟩

/-- Embeds `remove_terms_name_company`: add the suffix-stripped-name column. -/
def remove_terms_name_company (rows : List NormRow) : List TermRow :=
  rows.map fun r =>
    { toNormRow := r, not_business_terms_name := remove_business_terms r.norm_name }

/-- Embeds `remove_last_digits_iban`: delete space runs (`re.sub(' +','')`),
drop the final two characters (`[:-2]`), then `strip()`. -/
def remove_last_digits_iban (iban : String) : String :=
  pyStrip ⟨((iban.data.filter fun c => !(c == ' ')).dropLast).dropLast⟩

/-- Embeds `generate_name_iban_normalized`: add the truncated-IBAN column, the
full key `NORM_NAME + ' ' + IBAN` and the candidate key
`NOT_BUSINESS_TERMS_NAME + ' ' + NORM_IBAN`. -/
def generate_name_iban_normalized (rows : List TermRow) : List KeyRow :=
  rows.map fun r =>
    { toTermRow := r,
      norm_iban := remove_last_digits_iban r.iban,
      norm_name_iban := r.norm_name ++ " " ++ r.iban,
      not_business_terms_name_norm_iban :=
        r.not_business_terms_name ++ " " ++ remove_last_digits_iban r.iban }

/-- Embeds `get_uniques_name_plus_iban`: the distinct candidate-key values, in
first-occurrence order (`pandas.Series.unique`). -/
def get_uniques_name_plus_iban (rows : List KeyRow) : List String :=
  dedupFirst (rows.map (·.not_business_terms_name_norm_iban))

/-- Embeds `get_company_match`: score the query against every member of the
candidate universe with `token_set_ratio`, take the first maximum
(`numpy.argmax`), drop the key's last token and capitalize.  On an empty
universe `numpy.argmax` raises `ValueError`, embedded as the `Except.error`
case carrying numpy's message. -/
def get_company_match (actual_company : String) (unique_companies : List String) :
    Except String String :=
  if unique_companies.isEmpty then
    .error "attempt to get argmax of an empty sequence"
  else
    let match_values := unique_companies.map fun uc => token_set_ratio uc actual_company
    let i := (idxMax match_values).1
    .ok (pyCapitalize (joinSpace ((pySplit (unique_companies.getD i "")).dropLast)))

/-- Embeds `generate_company_match`: assign each row the resolved company for
its full key (`NORM_NAME_IBAN` column). -/
def generate_company_match (rows : List KeyRow) (unique_company_name_iban : List String) :
    Except String (List MatchRow) :=
  rows.mapM fun r =>
    (get_company_match r.norm_name_iban unique_company_name_iban).map
      fun c => { toKeyRow := r, company := c }

/-- Embeds `generate_group_by_company`: group by the assigned company
(pandas sorts group keys ascending), collecting the distinct raw names and
distinct raw IBANs of each group (`list(set(x))`, modelled order-insensitively
as first-occurrence dedup). -/
def generate_group_by_company (rows : List MatchRow) : List Entity :=
  (sortStrings (dedupFirst (rows.map (·.company)))).map fun k =>
    { company := k,
      names := dedupFirst ((rows.filter fun r => r.company == k).map (·.name)),
      ibans := dedupFirst ((rows.filter fun r => r.company == k).map (·.iban)) }

/-- Embeds `process_entity_resolution`: suffix stripping, key construction,
candidate-universe construction, matching, grouping. -/
def process_entity_resolution (rows : List NormRow) : Except String (List Entity) := do
  let termed := remove_terms_name_company rows
  let keyed := generate_name_iban_normalized termed
  let uniques := get_uniques_name_plus_iban keyed
  let matched ← generate_company_match keyed uniques
  return generate_group_by_company matched

/-! ## Character-level lemmas -/

theorem toNat_ofNat_lt {m : Nat} (h : m < 55296) : (Char.ofNat m).toNat = m := by
  rw [Char.ofNat, dif_pos (Or.inl (by exact_mod_cast h))]
  rfl

theorem isUpperAscii_pyLower (c : Char) : isUpperAscii (pyLower c) = false := by
  unfold pyLower
  by_cases h : isUpperAscii c = true
  · rw [if_pos h]
    unfold isUpperAscii at *
    have h1 : 65 ≤ c.toNat ∧ c.toNat ≤ 90 := by simpa using h
    have h2 : (Char.ofNat (c.toNat + 32)).toNat = c.toNat + 32 :=
      toNat_ofNat_lt (by omega)
    simp only [h2, Bool.and_eq_false_iff, decide_eq_false_iff_not]
    omega
  · rw [if_neg h]
    simpa using h

theorem pyLower_eq_self {c : Char} (h : isUpperAscii c = false) : pyLower c = c := by
  unfold pyLower
  rw [if_neg]
  simp [h]

/-! ## Strip and collapse lemmas -/

theorem head?_dropWhile (p : Char → Bool) (l : List Char) :
    ∀ c, (l.dropWhile p).head? = some c → p c = false := by
  induction l with
  | nil => simp
  | cons x xs ih =>
    intro c h
    rw [List.dropWhile_cons] at h
    by_cases hx : p x = true
    · rw [if_pos hx] at h
      exact ih c h
    · rw [if_neg hx] at h
      simp only [List.head?_cons, Option.some.injEq] at h
      subst h
      simpa using hx

theorem mem_stripChars {c : Char} {l : List Char} (h : c ∈ stripChars l) : c ∈ l := by
  unfold stripChars at h
  have h1 : c ∈ l.dropWhile isWs :=
    ( List.rdropWhile_prefix isWs (l.dropWhile isWs)).sublist.mem h
  exact (List.dropWhile_sublist isWs).mem h1

theorem stripChars_head {l : List Char} :
    ∀ c, (stripChars l).head? = some c → isWs c = false := by
  intro c h
  obtain ⟨rest, hr⟩ := List.rdropWhile_prefix isWs (l.dropWhile isWs)
  rcases hm : stripChars l with _ | ⟨a, t⟩
  · rw [hm] at h
    exact absurd h (by simp)
  · rw [hm] at h
    simp only [List.head?_cons, Option.some.injEq] at h
    have hA : (l.dropWhile isWs).head? = some a := by
      have h2 : stripChars l ++ rest = l.dropWhile isWs := hr
      rw [hm] at h2
      rw [← h2]
      simp
    rw [← h]
    exact head?_dropWhile isWs l a hA

theorem getLast?_reverse_head (l : List Char) :
    ∀ c, l.getLast? = some c → l.reverse.head? = some c := by
  intro c h
  rw [List.head?_reverse]
  exact h

theorem stripChars_getLast {l : List Char} :
    ∀ c, (stripChars l).getLast? = some c → isWs c = false := by
  intro c h
  unfold stripChars List.rdropWhile at h
  rw [List.getLast?_reverse] at h
  exact head?_dropWhile isWs _ c h

theorem collapseSpaces_head (c : Char) (r : List Char) :
    (collapseSpaces (c :: r)).head? = some c := by
  induction r generalizing c with
  | nil => rfl
  | cons c2 r2 ih =>
    rw [collapseSpaces]
    by_cases hc : (c = ' ' && c2 = ' ') = true
    · rw [if_pos hc]
      have h2 := ih c2
      simp only [Bool.and_eq_true, decide_eq_true_eq] at hc
      rw [h2, hc.1, hc.2]
    · rw [if_neg hc]
      rfl

theorem collapseSpaces_ne_nil {l : List Char} (h : l ≠ []) : collapseSpaces l ≠ [] := by
  rcases l with _ | ⟨c, r⟩
  · exact absurd rfl h
  · intro hc
    have := collapseSpaces_head c r
    rw [hc] at this
    exact absurd this (by simp)

theorem collapseSpaces_getLast {l : List Char} (h : l ≠ []) :
    (collapseSpaces l).getLast? = l.getLast? := by
  induction l with
  | nil => exact absurd rfl h
  | cons c r ih =>
    rcases r with _ | ⟨c2, r2⟩
    · rfl
    · rw [collapseSpaces]
      have hne : (c2 :: r2 : List Char) ≠ [] := by simp
      by_cases hc : (c = ' ' && c2 = ' ') = true
      · rw [if_pos hc, ih hne]
        exact (List.getLast?_cons_cons ..).symm
      · rw [if_neg hc]
        rw [List.getLast?_cons_cons]
        rw [← ih hne]
        have hnn : collapseSpaces (c2 :: r2) ≠ [] := collapseSpaces_ne_nil hne
        rcases hx : collapseSpaces (c2 :: r2) with _ | ⟨a, t⟩
        · exact absurd hx hnn
        · exact List.getLast?_cons_cons ..

theorem noDoubleSpace_collapseSpaces (l : List Char) :
    noDoubleSpace (collapseSpaces l) = true := by
  induction l with
  | nil => rfl
  | cons c r ih =>
    rcases r with _ | ⟨c2, r2⟩
    · rfl
    · rw [collapseSpaces]
      by_cases hc : (c = ' ' && c2 = ' ') = true
      · rw [if_pos hc]
        exact ih
      · rw [if_neg hc]
        have hh := collapseSpaces_head c2 r2
        rcases hx : collapseSpaces (c2 :: r2) with _ | ⟨a, t⟩
        · exact absurd hx (collapseSpaces_ne_nil (by simp))
        · rw [hx] at hh
          simp only [List.head?_cons, Option.some.injEq] at hh
          have hcf : (c = ' ' && a = ' ') = false := by
            cases hb : (c = ' ' && a = ' ') with
            | false => rfl
            | true => rw [hh] at hb; exact absurd hb hc
          rw [noDoubleSpace]
          rw [hx] at ih
          rw [ih, hcf]
          rfl

theorem collapseSpaces_eq_self {l : List Char} (h : noDoubleSpace l = true) :
    collapseSpaces l = l := by
  induction l with
  | nil => rfl
  | cons c r ih =>
    rcases r with _ | ⟨c2, r2⟩
    · rfl
    · rw [noDoubleSpace] at h
      simp only [Bool.and_eq_true, Bool.not_eq_true'] at h
      rw [collapseSpaces, if_neg (by simp [h.1]), ih h.2]

theorem mem_collapseSpaces {c : Char} {l : List Char} (h : c ∈ collapseSpaces l) :
    c ∈ l := by
  induction l with
  | nil => simp [collapseSpaces] at h
  | cons c1 r ih =>
    rcases r with _ | ⟨c2, r2⟩
    · simpa [collapseSpaces] using h
    · rw [collapseSpaces] at h
      by_cases hc : (c1 = ' ' && c2 = ' ') = true
      · rw [if_pos hc] at h
        exact List.mem_cons_of_mem _ (ih h)
      · rw [if_neg hc] at h
        rcases List.mem_cons.mp h with h1 | h2
        · exact h1 ▸ List.mem_cons_self _ _
        · exact List.mem_cons_of_mem _ (ih h2)

theorem collapseSpaces_head? (l : List Char) :
    (collapseSpaces l).head? = l.head? := by
  rcases l with _ | ⟨c, r⟩
  · rfl
  · rw [collapseSpaces_head c r]
    rfl

theorem map_pyLower_eq_self {l : List Char} (h : ∀ c ∈ l, isUpperAscii c = false) :
    l.map pyLower = l := by
  induction l with
  | nil => rfl
  | cons x xs ih =>
    rw [List.map_cons, pyLower_eq_self (h x (List.mem_cons_self x xs)),
      ih fun c hc => h c (List.mem_cons_of_mem x hc)]

theorem dropWhile_eq_self_of_head {p : Char → Bool} {l : List Char}
    (h : ∀ c, l.head? = some c → p c = false) : l.dropWhile p = l := by
  rcases l with _ | ⟨c, r⟩
  · rfl
  · rw [List.dropWhile_cons, if_neg]
    simp [h c (by simp)]

theorem rdropWhile_eq_self_of_getLast {p : Char → Bool} {l : List Char}
    (h : ∀ c, l.getLast? = some c → p c = false) : List.rdropWhile p l = l := by
  unfold List.rdropWhile
  rw [dropWhile_eq_self_of_head, List.reverse_reverse]
  intro c hc
  rw [List.head?_reverse] at hc
  exact h c hc

theorem stripChars_eq_self {l : List Char}
    (hh : ∀ c, l.head? = some c → isWs c = false)
    (hg : ∀ c, l.getLast? = some c → isWs c = false) : stripChars l = l := by
  unfold stripChars
  rw [dropWhile_eq_self_of_head hh, rdropWhile_eq_self_of_getLast hg]

/-! ## Facts about the output of `normalize_text` -/

theorem normalize_text_mem {s : String} {c : Char} (h : c ∈ (normalize_text s).data) :
    (isWordChar c || isWs c) = true ∧ isUpperAscii c = false := by
  unfold normalize_text at h
  have h1 : c ∈ (s.data.map pyLower).filter fun c => isWordChar c || isWs c :=
    mem_stripChars (mem_collapseSpaces h)
  have h2 := List.mem_filter.mp h1
  refine ⟨h2.2, ?_⟩
  obtain ⟨c0, _, hc0⟩ := List.mem_map.mp h2.1
  rw [← hc0]
  exact isUpperAscii_pyLower c0

theorem normalize_text_head {s : String} {c : Char}
    (h : (normalize_text s).data.head? = some c) : isWs c = false := by
  unfold normalize_text at h
  rw [collapseSpaces_head?] at h
  exact stripChars_head c h

theorem normalize_text_getLast {s : String} {c : Char}
    (h : (normalize_text s).data.getLast? = some c) : isWs c = false := by
  unfold normalize_text at h
  by_cases hn :
      stripChars ((s.data.map pyLower).filter fun c => isWordChar c || isWs c) = []
  · rw [hn] at h
    exact absurd h (by simp [collapseSpaces])
  · rw [collapseSpaces_getLast hn] at h
    exact stripChars_getLast c h

theorem normalize_text_noDoubleSpace (s : String) :
    noDoubleSpace (normalize_text s).data = true :=
  noDoubleSpace_collapseSpaces _

theorem normalize_text_fixed {u : String}
    (hmem : ∀ c ∈ u.data, (isWordChar c || isWs c) = true ∧ isUpperAscii c = false)
    (hh : ∀ c, u.data.head? = some c → isWs c = false)
    (hg : ∀ c, u.data.getLast? = some c → isWs c = false)
    (hd : noDoubleSpace u.data = true) : normalize_text u = u := by
  unfold normalize_text
  rw [map_pyLower_eq_self fun c hc => (hmem c hc).2,
    List.filter_eq_self.mpr fun c hc => (hmem c hc).1,
    stripChars_eq_self hh hg,
    collapseSpaces_eq_self hd]

/-! ## Claims about the Normalizer -/

/-- C7 (counterexample): the claim says every character of `normalize_text`'s
output is a lowercase alphanumeric or a space, but on input `"a\tb"` the
output still contains the tab character: the regex `[^\w\s]` keeps all
whitespace and only space runs are collapsed, so internal tabs survive. -/
theorem claim_C7_cex :
    '\t' ∈ (normalize_text "a\tb").data ∧ '\t'.isAlphanum = false ∧ '\t' ≠ ' ' := by
  decide

/-- C7 (amended): every character of `normalize_text`'s output is a
non-uppercase word character (lowercase alphanumeric or underscore) or a
whitespace character; the output has no leading or trailing whitespace; and no
two adjacent output characters are both spaces (internal runs of the space
character are collapsed to a single space; other whitespace is preserved). -/
theorem claim_C7 (s : String) :
    (∀ c ∈ (normalize_text s).data,
      (isWordChar c || isWs c) = true ∧ isUpperAscii c = false) ∧
    (∀ c, (normalize_text s).data.head? = some c → isWs c = false) ∧
    (∀ c, (normalize_text s).data.getLast? = some c → isWs c = false) ∧
    noDoubleSpace (normalize_text s).data = true :=
  ⟨fun _ hc => normalize_text_mem hc,
   fun _ hc => normalize_text_head hc,
   fun _ hc => normalize_text_getLast hc,
   normalize_text_noDoubleSpace s⟩

/-- C7 (witness): the amended theorem applied at `"A  b!"`, whose
normalization is `"a b"`. -/
theorem claim_C7_witness :
    ((isWordChar 'a' || isWs 'a') = true ∧ isUpperAscii 'a' = false) ∧
    isWs 'a' = false ∧ isWs 'b' = false :=
  ⟨(claim_C7 "A  b!").1 'a' (by decide),
   (claim_C7 "A  b!").2.1 'a' (by decide),
   (claim_C7 "A  b!").2.2.1 'b' (by decide)⟩

/-- C9: `normalize_text` is idempotent: normalizing an already-normalized
string changes nothing, because the output contains only non-uppercase
word/whitespace characters (so lowering and filtering are identities), has no
edge whitespace (so stripping is the identity) and no double spaces (so
space-run collapsing is the identity). -/
theorem claim_C9 (s : String) :
    normalize_text (normalize_text s) = normalize_text s :=
  normalize_text_fixed
    (fun _ hc => normalize_text_mem hc)
    (fun _ hc => normalize_text_head hc)
    (fun _ hc => normalize_text_getLast hc)
    (normalize_text_noDoubleSpace s)

/-! ## Claims about the IdentifierTruncator -/

theorem mem_of_head? {l : List Char} {c : Char} (h : l.head? = some c) : c ∈ l := by
  rcases l with _ | ⟨a, t⟩
  · exact absurd h (by simp)
  · simp only [List.head?_cons, Option.some.injEq] at h
    exact h ▸ List.mem_cons_self a t

theorem mem_of_getLast? {l : List Char} {c : Char} (h : l.getLast? = some c) : c ∈ l := by
  have h2 : l.reverse.head? = some c := by
    rw [List.head?_reverse]
    exact h
  exact List.mem_reverse.mp (mem_of_head? h2)

/-- C6 (counterexample): the claim says identifiers whose length after
whitespace removal is below 2 truncate to the empty string, but on `"a\t\t"`
(length 1 after whitespace removal) the code returns `"a"`: the regex
`' +'` deletes only space characters, so the two tabs — not the `'a'` — are
the characters dropped by `[:-2]`, and the final `strip()` then removes
nothing more. -/
theorem claim_C6_cex :
    ("a\t\t".data.filter fun c => !c.isWhitespace).length < 2 ∧
    remove_last_digits_iban "a\t\t" ≠ "" := by
  decide

/-- C6 (amended): `remove_last_digits_iban` removes all space characters
(U+0020 — not all whitespace), drops the last 2 remaining characters, and
strips edge whitespace; for whitespace-free identifiers of length ≥ 2 the
result's length is the input's length minus 2, and whenever the length after
space removal is below 2 it returns the empty string rather than throwing. -/
theorem claim_C6 (iban : String) :
    ((∀ c ∈ iban.data, isWs c = false) → 2 ≤ iban.data.length →
      (remove_last_digits_iban iban).data.length = iban.data.length - 2) ∧
    ((iban.data.filter fun c => !(c == ' ')).length < 2 →
      remove_last_digits_iban iban = "") := by
  constructor
  · intro hws hlen
    unfold remove_last_digits_iban pyStrip
    have hsp : iban.data.filter (fun c => !(c == ' ')) = iban.data := by
      apply List.filter_eq_self.mpr
      intro c hc
      have h1 := hws c hc
      simp only [Bool.not_eq_true', beq_eq_false_iff_ne, ne_eq]
      intro hceq
      rw [hceq] at h1
      exact absurd h1 (by decide)
    rw [hsp]
    have hmem : ∀ c ∈ (iban.data.dropLast).dropLast, isWs c = false := fun c hc =>
      hws c (List.Sublist.mem (List.Sublist.mem hc (List.dropLast_sublist _))
        (List.dropLast_sublist _))
    have hstr : stripChars ((iban.data.dropLast).dropLast) =
        (iban.data.dropLast).dropLast :=
      stripChars_eq_self
        (fun c hc => hmem c (mem_of_head? hc))
        (fun c hc => hmem c (mem_of_getLast? hc))
    show (stripChars ((iban.data.dropLast).dropLast)).length = iban.data.length - 2
    rw [hstr, List.length_dropLast, List.length_dropLast]
    omega
  · intro hlt
    unfold remove_last_digits_iban pyStrip
    have h0 : ((iban.data.filter fun c => !(c == ' ')).dropLast).dropLast = [] := by
      have := List.length_dropLast ((iban.data.filter fun c => !(c == ' ')).dropLast)
      have := List.length_dropLast (iban.data.filter fun c => !(c == ' '))
      apply List.eq_nil_of_length_eq_zero
      omega
    show (⟨stripChars (((iban.data.filter fun c => !(c == ' ')).dropLast).dropLast)⟩ :
      String) = ""
    rw [h0]
    rfl

/-- C6 (witness): the amended theorem at `"DE001"` (whitespace-free, length 5)
and at `" a"` (length 1 after space removal). -/
theorem claim_C6_witness :
    (remove_last_digits_iban "DE001").data.length = "DE001".data.length - 2 ∧
    remove_last_digits_iban " a" = "" :=
  ⟨(claim_C6 "DE001").1 (by decide) (by decide), (claim_C6 " a").2 (by decide)⟩

/-! ## Claims about the EntityMatcher's failure behaviour -/

/-- C3: on an empty canonical universe the matcher reaches numpy's
`argmax` on an empty array, which raises the library's generic
`ValueError("attempt to get argmax of an empty sequence")`; there is no
dedicated precondition signal in the code, contrary to the claim. -/
theorem claim_C3 :
    get_company_match "acme corp DE001" ([] : List String) =
      Except.error "attempt to get argmax of an empty sequence" := rfl

/-! ## The end-to-end scenario -/

set_option maxRecDepth 80000 in
/-- C4: on the three scenario rows with sentinel `"XX"`, the match stage
assigns every row the resolved name `"Acme"` and the aggregation stage emits
exactly one entity observing all three identifiers. -/
theorem claim_C4 :
    Except.map (List.map MatchRow.company)
      (generate_company_match
        (generate_name_iban_normalized (remove_terms_name_company
          (process_duplicate_removal "XX"
            [⟨some "Acme Corp", some "DE001"⟩, ⟨some "ACME GMBH", some "DE002"⟩,
             ⟨some "acme", some "DE003"⟩])))
        (get_uniques_name_plus_iban
          (generate_name_iban_normalized (remove_terms_name_company
            (process_duplicate_removal "XX"
              [⟨some "Acme Corp", some "DE001"⟩, ⟨some "ACME GMBH", some "DE002"⟩,
               ⟨some "acme", some "DE003"⟩]))))) =
      Except.ok ["Acme", "Acme", "Acme"] ∧
    process_entity_resolution
      (process_duplicate_removal "XX"
        [⟨some "Acme Corp", some "DE001"⟩, ⟨some "ACME GMBH", some "DE002"⟩,
         ⟨some "acme", some "DE003"⟩]) =
      Except.ok [{ company := "Acme", names := ["Acme Corp", "ACME GMBH", "acme"],
                   ibans := ["DE001", "DE002", "DE003"] }] := by
  decide

/-! ## Deduplication lemmas -/

theorem dedupByKeyAux_sublist {α κ : Type} [DecidableEq κ] (key : α → κ)
    (seen : List κ) (l : List α) : (dedupByKeyAux key seen l).Sublist l := by
  induction l generalizing seen with
  | nil => simp [dedupByKeyAux]
  | cons x xs ih =>
    rw [dedupByKeyAux]
    by_cases hm : key x ∈ seen
    · rw [if_pos hm]
      exact .cons x (ih seen)
    · rw [if_neg hm]
      exact .cons₂ x (ih (key x :: seen))

theorem mem_dedupByKeyAux {α κ : Type} [DecidableEq κ] {key : α → κ} {x : α}
    {seen : List κ} {l : List α} (h : x ∈ dedupByKeyAux key seen l) :
    x ∈ l ∧ key x ∉ seen := by
  induction l generalizing seen with
  | nil => simp [dedupByKeyAux] at h
  | cons y ys ih =>
    rw [dedupByKeyAux] at h
    by_cases hm : key y ∈ seen
    · rw [if_pos hm] at h
      exact ⟨List.mem_cons_of_mem y (ih h).1, (ih h).2⟩
    · rw [if_neg hm] at h
      rcases List.mem_cons.mp h with h1 | h2
      · subst h1
        exact ⟨List.mem_cons_self x ys, hm⟩
      · have h3 := ih h2
        refine ⟨List.mem_cons_of_mem y h3.1, fun hc => h3.2 (List.mem_cons_of_mem _ hc)⟩

theorem nodup_keys_dedupByKeyAux {α κ : Type} [DecidableEq κ] (key : α → κ)
    (seen : List κ) (l : List α) : ((dedupByKeyAux key seen l).map key).Nodup := by
  induction l generalizing seen with
  | nil => simp [dedupByKeyAux]
  | cons y ys ih =>
    rw [dedupByKeyAux]
    by_cases hm : key y ∈ seen
    · rw [if_pos hm]
      exact ih seen
    · rw [if_neg hm]
      rw [List.map_cons, List.nodup_cons]
      refine ⟨fun hc => ?_, ih (key y :: seen)⟩
      obtain ⟨x, hx, hkx⟩ := List.mem_map.mp hc
      exact (mem_dedupByKeyAux hx).2 (hkx ▸ List.mem_cons_self _ _)

theorem find?_dedupByKeyAux {α κ : Type} [DecidableEq α] [DecidableEq κ]
    {key : α → κ} {x : α} {seen : List κ} {l : List α}
    (h : x ∈ dedupByKeyAux key seen l) :
    l.find? (fun y => decide (key y = key x)) = some x := by
  induction l generalizing seen with
  | nil => simp [dedupByKeyAux] at h
  | cons y ys ih =>
    rw [dedupByKeyAux] at h
    by_cases hm : key y ∈ seen
    · rw [if_pos hm] at h
      have hx := mem_dedupByKeyAux h
      have hne : ¬(fun y => decide (key y = key x)) y = true := by
        simp only [decide_eq_true_eq]
        intro hc
        exact hx.2 (hc ▸ hm)
      rw [List.find?_cons_of_neg ys hne]
      exact ih h
    · rw [if_neg hm] at h
      rcases List.mem_cons.mp h with h1 | h2
      · subst h1
        exact List.find?_cons_of_pos _ (by simp)
      · have hx := mem_dedupByKeyAux h2
        have hne : ¬(fun y => decide (key y = key x)) y = true := by
          simp only [decide_eq_true_eq]
          intro hc
          exact hx.2 (hc ▸ List.mem_cons_self _ _)
        rw [List.find?_cons_of_neg ys hne]
        exact ih h2

/-! ## Stage-membership lemmas -/

theorem mem_remove_anomaly_data {invalid : String} {rows : List RawRow} {c : CleanRow}
    (h : c ∈ remove_anomaly_data invalid rows) :
    c.iban ≠ invalid ∧ ∃ raw ∈ rows, raw.name = some c.name ∧ raw.iban = some c.iban := by
  unfold remove_anomaly_data at h
  obtain ⟨raw, hraw, hmap⟩ := List.mem_filterMap.mp h
  rcases hn : raw.name with _ | n <;> rcases hi : raw.iban with _ | i <;>
    rw [hn, hi] at hmap <;> simp only [] at hmap
  · exact absurd hmap (by simp)
  · exact absurd hmap (by simp)
  · exact absurd hmap (by simp)
  · by_cases hinv : i = invalid
    · rw [if_pos hinv] at hmap
      exact absurd hmap (by simp)
    · rw [if_neg hinv] at hmap
      simp only [Option.some.injEq] at hmap
      subst hmap
      exact ⟨hinv, raw, hraw, hn, hi⟩

theorem mem_normalize_name_company {rows : List CleanRow} {r : NormRow}
    (h : r ∈ normalize_name_company rows) :
    r.toCleanRow ∈ rows ∧ r.norm_name = normalize_text r.name := by
  unfold normalize_name_company at h
  obtain ⟨c, hc, he⟩ := List.mem_map.mp h
  subst he
  exact ⟨hc, rfl⟩

/-! ## Claim about the DuplicateFilter -/

/-- C5: every survivor of the duplicate-removal stage has a present name and
identifier drawn from some input row and an identifier different from the
sentinel; the surviving `(normalized_name, raw_identifier)` pairs are pairwise
distinct; the survivors form a subsequence (order preserved) of the cleaned,
normalized input; and each survivor is the first occurrence of its key pair in
input order. -/
theorem claim_C5 (invalid : String) (rows : List RawRow) :
    (∀ r ∈ process_duplicate_removal invalid rows,
      r.iban ≠ invalid ∧ ∃ raw ∈ rows, raw.name = some r.name ∧ raw.iban = some r.iban) ∧
    ((process_duplicate_removal invalid rows).map fun r => (r.norm_name, r.iban)).Nodup ∧
    (process_duplicate_removal invalid rows).Sublist
      (normalize_name_company (remove_anomaly_data invalid rows)) ∧
    (∀ r ∈ process_duplicate_removal invalid rows,
      (normalize_name_company (remove_anomaly_data invalid rows)).find?
        (fun y => decide ((y.norm_name, y.iban) = (r.norm_name, r.iban))) = some r) := by
  refine ⟨fun r hr => ?_, ?_, ?_, fun r hr => ?_⟩
  · have hmid : r ∈ normalize_name_company (remove_anomaly_data invalid rows) :=
      List.Sublist.mem hr (dedupByKeyAux_sublist _ _ _)
    have h1 := mem_normalize_name_company hmid
    have h2 := mem_remove_anomaly_data h1.1
    exact ⟨h2.1, h2.2⟩
  · exact nodup_keys_dedupByKeyAux _ _ _
  · exact dedupByKeyAux_sublist _ _ _
  · exact find?_dedupByKeyAux hr

/-- C5 (witness): a concrete run with a sentinel row, a missing-field row and
an exact duplicate; the first-occurrence survivor is recovered by `find?`. -/
theorem claim_C5_witness :
    ((⟨⟨"A ", "I1"⟩, "a"⟩ : NormRow).iban ≠ "XX" ∧
      ∃ raw ∈ ([⟨some "A ", some "I1"⟩, ⟨some "a", some "I1"⟩, ⟨none, some "I2"⟩,
        ⟨some "B", some "XX"⟩] : List RawRow),
        raw.name = some (⟨⟨"A ", "I1"⟩, "a"⟩ : NormRow).name ∧
        raw.iban = some (⟨⟨"A ", "I1"⟩, "a"⟩ : NormRow).iban) ∧
    (normalize_name_company (remove_anomaly_data "XX"
        [⟨some "A ", some "I1"⟩, ⟨some "a", some "I1"⟩, ⟨none, some "I2"⟩,
         ⟨some "B", some "XX"⟩])).find?
      (fun y => decide ((y.norm_name, y.iban) = ("a", "I1"))) = some ⟨⟨"A ", "I1"⟩, "a"⟩ := by
  constructor
  · exact (claim_C5 "XX" [⟨some "A ", some "I1"⟩, ⟨some "a", some "I1"⟩,
      ⟨none, some "I2"⟩, ⟨some "B", some "XX"⟩]).1 ⟨⟨"A ", "I1"⟩, "a"⟩ (by decide)
  · exact (claim_C5 "XX" [⟨some "A ", some "I1"⟩, ⟨some "a", some "I1"⟩,
      ⟨none, some "I2"⟩, ⟨some "B", some "XX"⟩]).2.2.2 ⟨⟨"A ", "I1"⟩, "a"⟩ (by decide)

/-! ## First-maximum (numpy argmax) lemmas -/

theorem idxMax_lt_length {l : List Nat} (h : l ≠ []) : (idxMax l).1 < l.length := by
  induction l with
  | nil => exact absurd rfl h
  | cons x xs ih =>
    rcases xs with _ | ⟨y, rest⟩
    · simp [idxMax]
    · rw [idxMax]
      by_cases hc : x < (idxMax (y :: rest)).2
      · rw [if_pos hc]
        have := ih (by simp)
        simpa using Nat.succ_lt_succ this
      · rw [if_neg hc]
        simp

theorem idxMax_val (l : List Nat) : (idxMax l).2 = l.getD (idxMax l).1 0 := by
  induction l with
  | nil => rfl
  | cons x xs ih =>
    rcases xs with _ | ⟨y, rest⟩
    · rfl
    · rw [idxMax]
      by_cases hc : x < (idxMax (y :: rest)).2
      · rw [if_pos hc]
        simpa using ih
      · rw [if_neg hc]
        rfl

theorem idxMax_max (l : List Nat) : ∀ j, j < l.length → l.getD j 0 ≤ (idxMax l).2 := by
  induction l with
  | nil => intro j hj; simp at hj
  | cons x xs ih =>
    rcases xs with _ | ⟨y, rest⟩
    · intro j hj
      have hj0 : j = 0 := by
        simp only [List.length_cons, List.length_nil] at hj
        omega
      subst hj0
      simp [idxMax]
    · intro j hj
      rw [idxMax]
      by_cases hc : x < (idxMax (y :: rest)).2
      · rw [if_pos hc]
        rcases j with _ | k
        · simpa using Nat.le_of_lt hc
        · simpa using ih k (by simpa using hj)
      · rw [if_neg hc]
        rcases j with _ | k
        · simp
        · have h1 := ih k (by simpa using hj)
          have h2 : (idxMax (y :: rest)).2 ≤ x := Nat.le_of_not_lt hc
          simpa using Nat.le_trans h1 h2

theorem idxMax_first (l : List Nat) :
    ∀ j, j < (idxMax l).1 → l.getD j 0 < (idxMax l).2 := by
  induction l with
  | nil => intro j hj; simp [idxMax] at hj
  | cons x xs ih =>
    rcases xs with _ | ⟨y, rest⟩
    · intro j hj
      simp [idxMax] at hj
    · intro j hj
      rw [idxMax] at hj ⊢
      by_cases hc : x < (idxMax (y :: rest)).2
      · rw [if_pos hc] at hj ⊢
        rcases j with _ | k
        · simpa using hc
        · simpa using ih k (by simpa using hj)
      · rw [if_neg hc] at hj
        simp at hj

theorem getD_map {α β : Type} (f : α → β) (e : α) (d : β) :
    ∀ (l : List α) (j : Nat), j < l.length → (l.map f).getD j d = f (l.getD j e) := by
  intro l
  induction l with
  | nil => intro j hj; simp at hj
  | cons x xs ih =>
    intro j hj
    rcases j with _ | k
    · simp
    · simpa using ih k (by simpa using hj)

/-! ## Claim about the EntityMatcher's selection rule -/

/-- C2: on a non-empty universe the matcher returns exactly the transform —
whitespace-split, drop the last token, rejoin with single spaces, Python
`capitalize` — of the universe member whose `token_set_ratio` score against
the query is maximal, taking the first maximum in universe order on ties. -/
theorem claim_C2 (u : List String) (q : String) (hu : u ≠ []) :
    ∃ i, i < u.length ∧
      (∀ j, j < u.length →
        token_set_ratio (u.getD j "") q ≤ token_set_ratio (u.getD i "") q) ∧
      (∀ j, j < i →
        token_set_ratio (u.getD j "") q < token_set_ratio (u.getD i "") q) ∧
      get_company_match q u =
        Except.ok (pyCapitalize (joinSpace ((pySplit (u.getD i "")).dropLast))) := by
  have hmapne : u.map (fun uc => token_set_ratio uc q) ≠ [] := by
    simpa using hu
  have hlen : (u.map fun uc => token_set_ratio uc q).length = u.length :=
    List.length_map u _
  have hgetD : ∀ j, j < u.length →
      (u.map fun uc => token_set_ratio uc q).getD j 0 =
        token_set_ratio (u.getD j "") q :=
    getD_map (fun uc => token_set_ratio uc q) "" 0 u
  refine ⟨(idxMax (u.map fun uc => token_set_ratio uc q)).1, ?_, ?_, ?_, ?_⟩
  · have := idxMax_lt_length hmapne
    rwa [hlen] at this
  · intro j hj
    have hi : (idxMax (u.map fun uc => token_set_ratio uc q)).1 < u.length := by
      have := idxMax_lt_length hmapne
      rwa [hlen] at this
    have h1 := idxMax_max (u.map fun uc => token_set_ratio uc q) j (by rwa [hlen])
    rw [idxMax_val, hgetD j hj, hgetD _ hi] at h1
    exact h1
  · intro j hj
    have hi : (idxMax (u.map fun uc => token_set_ratio uc q)).1 < u.length := by
      have := idxMax_lt_length hmapne
      rwa [hlen] at this
    have hjlen : j < u.length := Nat.lt_trans hj hi
    have h1 := idxMax_first (u.map fun uc => token_set_ratio uc q) j hj
    rw [idxMax_val, hgetD j hjlen, hgetD _ hi] at h1
    exact h1
  · unfold get_company_match
    rw [if_neg (by simp [List.isEmpty_iff, hu])]

/-- C2 (witness): the selection theorem instantiated on a two-member universe. -/
theorem claim_C2_witness :
    ∃ i, i < (["acme x", "zz y"] : List String).length ∧
      (∀ j, j < (["acme x", "zz y"] : List String).length →
        token_set_ratio ((["acme x", "zz y"] : List String).getD j "") "acme" ≤
          token_set_ratio ((["acme x", "zz y"] : List String).getD i "") "acme") ∧
      (∀ j, j < i →
        token_set_ratio ((["acme x", "zz y"] : List String).getD j "") "acme" <
          token_set_ratio ((["acme x", "zz y"] : List String).getD i "") "acme") ∧
      get_company_match "acme" ["acme x", "zz y"] =
        Except.ok (pyCapitalize (joinSpace
          ((pySplit ((["acme x", "zz y"] : List String).getD i "")).dropLast))) :=
  claim_C2 ["acme x", "zz y"] "acme" (by decide)

/-! ## Group-by lemmas -/

theorem mem_dedupByKeyAux_id {α : Type} [DecidableEq α] {x : α} :
    ∀ {seen : List α} {l : List α}, x ∈ l → x ∉ seen →
      x ∈ dedupByKeyAux id seen l := by
  intro seen l
  induction l generalizing seen with
  | nil => intro h _; simp at h
  | cons y ys ih =>
    intro hx hs
    rw [dedupByKeyAux]
    by_cases hm : id y ∈ seen
    · rw [if_pos hm]
      rcases List.mem_cons.mp hx with h1 | h2
      · exact absurd (h1 ▸ hm) hs
      · exact ih h2 hs
    · rw [if_neg hm]
      rcases List.mem_cons.mp hx with h1 | h2
      · exact h1 ▸ List.mem_cons_self _ _
      · by_cases hxy : x = y
        · exact hxy ▸ List.mem_cons_self _ _
        · refine List.mem_cons_of_mem _ (ih h2 ?_)
          simp only [List.mem_cons]
          rintro (h3 | h3)
          · exact hxy h3
          · exact hs h3

theorem mem_dedupFirst {α : Type} [DecidableEq α] {x : α} {l : List α} :
    x ∈ dedupFirst l ↔ x ∈ l :=
  ⟨fun h => (mem_dedupByKeyAux h).1, fun h => mem_dedupByKeyAux_id h (by simp)⟩

theorem nodup_dedupFirst {α : Type} [DecidableEq α] (l : List α) :
    (dedupFirst l).Nodup := by
  have h := nodup_keys_dedupByKeyAux (id : α → α) [] l
  rwa [List.map_id] at h

theorem mem_sortStrings {x : String} {l : List String} :
    x ∈ sortStrings l ↔ x ∈ l :=
  List.mem_insertionSort _

theorem nodup_sortStrings {l : List String} (h : l.Nodup) :
    (sortStrings l).Nodup :=
  (List.Perm.nodup_iff (List.perm_insertionSort _ l)).mpr h

theorem mem_groupKeys {rows : List MatchRow} {k : String} :
    k ∈ sortStrings (dedupFirst (rows.map (·.company))) ↔
      ∃ r ∈ rows, r.company = k := by
  rw [mem_sortStrings, mem_dedupFirst]
  constructor
  · intro h
    obtain ⟨r, hr, hk⟩ := List.mem_map.mp h
    exact ⟨r, hr, hk⟩
  · intro ⟨r, hr, hk⟩
    exact List.mem_map.mpr ⟨r, hr, hk⟩

theorem mem_generate_group_names {rows : List MatchRow} {e : Entity}
    (he : e ∈ generate_group_by_company rows) :
    ∀ n, n ∈ e.names ↔ ∃ r ∈ rows, r.company = e.company ∧ r.name = n := by
  intro n
  obtain ⟨k, _, hk⟩ := List.mem_map.mp he
  subst hk
  simp only [mem_dedupFirst, List.mem_map, List.mem_filter, beq_iff_eq]
  constructor
  · intro ⟨r, ⟨hr, hrk⟩, hn⟩
    exact ⟨r, hr, hrk, hn⟩
  · intro ⟨r, hr, hrk, hn⟩
    exact ⟨r, ⟨hr, hrk⟩, hn⟩

theorem mem_generate_group_ibans {rows : List MatchRow} {e : Entity}
    (he : e ∈ generate_group_by_company rows) :
    ∀ i, i ∈ e.ibans ↔ ∃ r ∈ rows, r.company = e.company ∧ r.iban = i := by
  intro i
  obtain ⟨k, _, hk⟩ := List.mem_map.mp he
  subst hk
  simp only [mem_dedupFirst, List.mem_map, List.mem_filter, beq_iff_eq]
  constructor
  · intro ⟨r, ⟨hr, hrk⟩, hn⟩
    exact ⟨r, hr, hrk, hn⟩
  · intro ⟨r, hr, hrk, hn⟩
    exact ⟨r, ⟨hr, hrk⟩, hn⟩

theorem map_company_generate_group (rows : List MatchRow) :
    (generate_group_by_company rows).map Entity.company =
      sortStrings (dedupFirst (rows.map (·.company))) := by
  unfold generate_group_by_company
  rw [List.map_map]
  exact List.map_id _

theorem nodup_company_generate_group (rows : List MatchRow) :
    ((generate_group_by_company rows).map Entity.company).Nodup := by
  rw [map_company_generate_group]
  exact nodup_sortStrings (nodup_dedupFirst _)

theorem exists_entity_for_row {rows : List MatchRow} {r : MatchRow} (hr : r ∈ rows) :
    ∃ e ∈ generate_group_by_company rows, e.company = r.company := by
  have hk : r.company ∈ sortStrings (dedupFirst (rows.map (·.company))) :=
    mem_groupKeys.mpr ⟨r, hr, rfl⟩
  exact ⟨_, List.mem_map_of_mem _ hk, rfl⟩

/-! ## Claim about the Aggregator -/

/-- C8: the union of the entities' observed names is exactly the set of input
raw names; the output entities carry pairwise-distinct resolved names (so no
record contributes to two entities, and there is one output row per distinct
resolved name, with a row for every input record's resolved name); and every
entity collects exactly the distinct raw names and distinct raw identifiers of
its group. -/
theorem claim_C8 (rows : List MatchRow) :
    (∀ n, (∃ e ∈ generate_group_by_company rows, n ∈ e.names) ↔
      ∃ r ∈ rows, r.name = n) ∧
    ((generate_group_by_company rows).map Entity.company).Nodup ∧
    (∀ e1 ∈ generate_group_by_company rows, ∀ e2 ∈ generate_group_by_company rows,
      e1.company = e2.company → e1 = e2) ∧
    (∀ r ∈ rows, ∃ e ∈ generate_group_by_company rows, e.company = r.company) ∧
    (∀ e ∈ generate_group_by_company rows,
      e.names.Nodup ∧ e.ibans.Nodup ∧
      (∀ n, n ∈ e.names ↔ ∃ r ∈ rows, r.company = e.company ∧ r.name = n) ∧
      (∀ i, i ∈ e.ibans ↔ ∃ r ∈ rows, r.company = e.company ∧ r.iban = i)) := by
  refine ⟨?_, nodup_company_generate_group rows, ?_, fun r hr => exists_entity_for_row hr,
    fun e he => ⟨?_, ?_, mem_generate_group_names he, mem_generate_group_ibans he⟩⟩
  · intro n
    constructor
    · intro ⟨e, he, hn⟩
      obtain ⟨r, hr, _, hrn⟩ := (mem_generate_group_names he n).mp hn
      exact ⟨r, hr, hrn⟩
    · intro ⟨r, hr, hrn⟩
      obtain ⟨e, he, hek⟩ := exists_entity_for_row hr
      exact ⟨e, he, (mem_generate_group_names he n).mpr ⟨r, hr, hek.symm, hrn⟩⟩
  · intro e1 he1 e2 he2 hc
    exact List.inj_on_of_nodup_map (nodup_company_generate_group rows) he1 he2 hc
  · obtain ⟨k, _, hk⟩ := List.mem_map.mp he
    subst hk
    exact nodup_dedupFirst _
  · obtain ⟨k, _, hk⟩ := List.mem_map.mp he
    subst hk
    exact nodup_dedupFirst _

/-- C8 (witness): the aggregation claim instantiated on two records sharing a
resolved company plus a third with its own. -/
theorem claim_C8_witness :
    (∃ e ∈ generate_group_by_company
        [⟨⟨⟨⟨⟨"N1", "I1"⟩, "n1"⟩, "n1"⟩, "I", "n1 I1", "n1 I"⟩, "Acme"⟩,
         ⟨⟨⟨⟨⟨"N2", "I2"⟩, "n2"⟩, "n2"⟩, "I", "n2 I2", "n2 I"⟩, "Acme"⟩,
         ⟨⟨⟨⟨⟨"N3", "I3"⟩, "n3"⟩, "n3"⟩, "I", "n3 I3", "n3 I"⟩, "Beta"⟩],
      e.company = "Acme") ∧
    (∃ e ∈ generate_group_by_company
        [⟨⟨⟨⟨⟨"N1", "I1"⟩, "n1"⟩, "n1"⟩, "I", "n1 I1", "n1 I"⟩, "Acme"⟩,
         ⟨⟨⟨⟨⟨"N2", "I2"⟩, "n2"⟩, "n2"⟩, "I", "n2 I2", "n2 I"⟩, "Acme"⟩,
         ⟨⟨⟨⟨⟨"N3", "I3"⟩, "n3"⟩, "n3"⟩, "I", "n3 I3", "n3 I"⟩, "Beta"⟩],
      "N2" ∈ e.names) := by
  constructor
  · have h := (claim_C8 [⟨⟨⟨⟨⟨"N1", "I1"⟩, "n1"⟩, "n1"⟩, "I", "n1 I1", "n1 I"⟩, "Acme"⟩,
      ⟨⟨⟨⟨⟨"N2", "I2"⟩, "n2"⟩, "n2"⟩, "I", "n2 I2", "n2 I"⟩, "Acme"⟩,
      ⟨⟨⟨⟨⟨"N3", "I3"⟩, "n3"⟩, "n3"⟩, "I", "n3 I3", "n3 I"⟩, "Beta"⟩]).2.2.2.1
      ⟨⟨⟨⟨⟨"N1", "I1"⟩, "n1"⟩, "n1"⟩, "I", "n1 I1", "n1 I"⟩, "Acme"⟩ (by decide)
    exact h
  · have h := (claim_C8 [⟨⟨⟨⟨⟨"N1", "I1"⟩, "n1"⟩, "n1"⟩, "I", "n1 I1", "n1 I"⟩, "Acme"⟩,
      ⟨⟨⟨⟨⟨"N2", "I2"⟩, "n2"⟩, "n2"⟩, "I", "n2 I2", "n2 I"⟩, "Acme"⟩,
      ⟨⟨⟨⟨⟨"N3", "I3"⟩, "n3"⟩, "n3"⟩, "I", "n3 I3", "n3 I"⟩, "Beta"⟩]).1 "N2"
    exact h.mpr ⟨⟨⟨⟨⟨⟨"N2", "I2"⟩, "n2"⟩, "n2"⟩, "I", "n2 I2", "n2 I"⟩, "Acme"⟩,
      by decide, rfl⟩

/-! ## Claim about degenerate candidate keys (C10) -/

/-- C10: when the universe member selected by the first-maximum rule has at
most one whitespace-separated token (as happens when a suffix-stripped name is
empty and the candidate key is just the truncated identifier), the matcher
returns the empty string as the resolved name; and the aggregation stage still
groups records whose resolved name is the empty string under an entity with
that name rather than dropping them. -/
theorem claim_C10 :
    (∀ (u : List String) (q : String), u ≠ [] →
      (pySplit (u.getD (idxMax (u.map fun uc => token_set_ratio uc q)).1 "")).length ≤ 1 →
      get_company_match q u = Except.ok "") ∧
    (∀ (rows : List MatchRow) (r : MatchRow), r ∈ rows → r.company = "" →
      ∃ e ∈ generate_group_by_company rows, e.company = "" ∧ r.name ∈ e.names) := by
  constructor
  · intro u q hu ht
    unfold get_company_match
    rw [if_neg (by simp [List.isEmpty_iff, hu])]
    show Except.ok (pyCapitalize (joinSpace
      ((pySplit (u.getD (idxMax (u.map fun uc => token_set_ratio uc q)).1 "")).dropLast)))
      = Except.ok ""
    have hdrop :
        (pySplit (u.getD (idxMax (u.map fun uc => token_set_ratio uc q)).1 "")).dropLast
          = [] := by
      rcases hx :
          pySplit (u.getD (idxMax (u.map fun uc => token_set_ratio uc q)).1 "") with
        _ | ⟨t, ts⟩
      · rfl
      · rcases ts with _ | ⟨t2, ts2⟩
        · rfl
        · rw [hx] at ht
          simp at ht
    rw [hdrop]
    rfl
  · intro rows r hr hc
    obtain ⟨e, he, hek⟩ := exists_entity_for_row hr
    refine ⟨e, he, hek.trans hc, ?_⟩
    exact (mem_generate_group_names he r.name).mpr ⟨r, hr, hek.symm, rfl⟩

set_option maxRecDepth 20000 in
/-- C10 (witness): a one-member universe whose only member is a bare
truncated identifier, and a record resolved to the empty string that the
aggregator keeps. -/
theorem claim_C10_witness :
    get_company_match "acme corp DE001" ["DE0"] = Except.ok "" ∧
    ∃ e ∈ generate_group_by_company
        [⟨⟨⟨⟨⟨"x", "I"⟩, "n"⟩, "t"⟩, "I0", "k1", "k2"⟩, ""⟩],
      e.company = "" ∧ "x" ∈ e.names :=
  ⟨claim_C10.1 ["DE0"] "acme corp DE001" (by decide) (by decide),
   claim_C10.2 [⟨⟨⟨⟨⟨"x", "I"⟩, "n"⟩, "t"⟩, "I0", "k1", "k2"⟩, ""⟩]
     ⟨⟨⟨⟨⟨"x", "I"⟩, "n"⟩, "t"⟩, "I0", "k1", "k2"⟩, ""⟩ (by decide) rfl⟩

/-! ## Claim about the key roles (C1) -/

theorem mapM_loop_congr {α β : Type} {g₁ g₂ : α → Except String β} :
    ∀ (l : List α) (acc : List β), (∀ r ∈ l, g₁ r = g₂ r) →
      List.mapM.loop g₁ l acc = List.mapM.loop g₂ l acc := by
  intro l
  induction l with
  | nil => intro acc _; rfl
  | cons x xs ih =>
    intro acc h
    rw [List.mapM.loop, List.mapM.loop, h x (List.mem_cons_self x xs)]
    rcases g₂ x with e | b
    · rfl
    · exact ih (b :: acc) fun r hr => h r (List.mem_cons_of_mem x hr)

theorem mapM_congr_except {α β : Type} {g₁ g₂ : α → Except String β}
    (l : List α) (h : ∀ r ∈ l, g₁ r = g₂ r) : l.mapM g₁ = l.mapM g₂ :=
  mapM_loop_congr l [] h

/-- C1 (counterexample): the claim says the canonical universe consists of
the distinct full keys (`normalized_name + " " + raw_identifier`), but on a
one-row dataset the universe actually built is the candidate key
`"acme DE0"` (suffix-stripped name + truncated identifier), not the full key
`"acme corp DE001"`: the roles of the two keys in the claim are swapped
relative to the code. -/
theorem claim_C1_cex :
    get_uniques_name_plus_iban (generate_name_iban_normalized (remove_terms_name_company
      [⟨⟨"Acme Corp", "DE001"⟩, "acme corp"⟩])) = ["acme DE0"] ∧
    dedupFirst ((generate_name_iban_normalized (remove_terms_name_company
      [⟨⟨"Acme Corp", "DE001"⟩, "acme corp"⟩])).map (·.norm_name_iban)) =
      ["acme corp DE001"] ∧
    ("acme DE0" : String) ≠ "acme corp DE001" := by
  decide

/-- C1 (amended): the canonical universe passed to the matcher is the set of
distinct candidate-key values (suffix-stripped name + `" "` + truncated
identifier) of the records, and the string each record is scored by is its
full key (`normalized_name + " " + raw_identifier`, suffix included). -/
theorem claim_C1 (rows : List NormRow) :
    (get_uniques_name_plus_iban
        (generate_name_iban_normalized (remove_terms_name_company rows)) =
      dedupFirst (rows.map fun r =>
        remove_business_terms r.norm_name ++ " " ++ remove_last_digits_iban r.iban)) ∧
    (∀ k ∈ generate_name_iban_normalized (remove_terms_name_company rows),
      k.norm_name_iban = k.norm_name ++ " " ++ k.iban ∧
      k.not_business_terms_name_norm_iban =
        remove_business_terms k.norm_name ++ " " ++ remove_last_digits_iban k.iban) ∧
    (∀ u : List String,
      generate_company_match
          (generate_name_iban_normalized (remove_terms_name_company rows)) u =
        (generate_name_iban_normalized (remove_terms_name_company rows)).mapM fun r =>
          (get_company_match (r.norm_name ++ " " ++ r.iban) u).map
            fun c => { toKeyRow := r, company := c }) := by
  refine ⟨?_, ?_, ?_⟩
  · unfold get_uniques_name_plus_iban generate_name_iban_normalized
      remove_terms_name_company
    rw [List.map_map, List.map_map]
    rfl
  · intro k hk
    unfold generate_name_iban_normalized remove_terms_name_company at hk
    rw [List.map_map] at hk
    obtain ⟨r, _, hr⟩ := List.mem_map.mp hk
    subst hr
    exact ⟨rfl, rfl⟩
  · intro u
    unfold generate_company_match
    apply mapM_congr_except
    intro k hk
    unfold generate_name_iban_normalized remove_terms_name_company at hk
    rw [List.map_map] at hk
    obtain ⟨r, _, hr⟩ := List.mem_map.mp hk
    subst hr
    rfl

set_option maxRecDepth 20000 in
/-- C1 (witness): the amended claim instantiated on the one-row dataset and
the singleton universe it produces. -/
theorem claim_C1_witness :
    (get_uniques_name_plus_iban
        (generate_name_iban_normalized (remove_terms_name_company
          [⟨⟨"Acme Corp", "DE001"⟩, "acme corp"⟩])) =
      dedupFirst (([⟨⟨"Acme Corp", "DE001"⟩, "acme corp"⟩] : List NormRow).map fun r =>
        remove_business_terms r.norm_name ++ " " ++ remove_last_digits_iban r.iban)) ∧
    ((⟨⟨⟨⟨"Acme Corp", "DE001"⟩, "acme corp"⟩, "acme"⟩, "DE0", "acme corp DE001",
        "acme DE0"⟩ : KeyRow).norm_name_iban =
      (⟨⟨⟨⟨"Acme Corp", "DE001"⟩, "acme corp"⟩, "acme"⟩, "DE0", "acme corp DE001",
        "acme DE0"⟩ : KeyRow).norm_name ++ " " ++
        (⟨⟨⟨⟨"Acme Corp", "DE001"⟩, "acme corp"⟩, "acme"⟩, "DE0", "acme corp DE001",
          "acme DE0"⟩ : KeyRow).iban ∧
      (⟨⟨⟨⟨"Acme Corp", "DE001"⟩, "acme corp"⟩, "acme"⟩, "DE0", "acme corp DE001",
        "acme DE0"⟩ : KeyRow).not_business_terms_name_norm_iban =
        remove_business_terms (⟨⟨⟨⟨"Acme Corp", "DE001"⟩, "acme corp"⟩, "acme"⟩, "DE0",
          "acme corp DE001", "acme DE0"⟩ : KeyRow).norm_name ++ " " ++
          remove_last_digits_iban (⟨⟨⟨⟨"Acme Corp", "DE001"⟩, "acme corp"⟩, "acme"⟩,
            "DE0", "acme corp DE001", "acme DE0"⟩ : KeyRow).iban) ∧
    generate_company_match
        (generate_name_iban_normalized (remove_terms_name_company
          [⟨⟨"Acme Corp", "DE001"⟩, "acme corp"⟩])) ["acme DE0"] =
      (generate_name_iban_normalized (remove_terms_name_company
        [⟨⟨"Acme Corp", "DE001"⟩, "acme corp"⟩])).mapM fun r =>
        (get_company_match (r.norm_name ++ " " ++ r.iban) ["acme DE0"]).map
          fun c => { toKeyRow := r, company := c } :=
  ⟨(claim_C1 [⟨⟨"Acme Corp", "DE001"⟩, "acme corp"⟩]).1,
   (claim_C1 [⟨⟨"Acme Corp", "DE001"⟩, "acme corp"⟩]).2.1
     ⟨⟨⟨⟨"Acme Corp", "DE001"⟩, "acme corp"⟩, "acme"⟩, "DE0", "acme corp DE001",
       "acme DE0"⟩ (by decide),
   (claim_C1 [⟨⟨"Acme Corp", "DE001"⟩, "acme corp"⟩]).2.2 ["acme DE0"]⟩

end Pipeline
